import Mathlib

/-!
# Celarium: verification of the anonymize / restore pipeline

Shallow embedding of the core logic of the Celarium privacy middleware
(`src/main.py`, `src/app.py`): span merging, fake-value substitution,
the session store, exact-substring restoration and the digit-normalized
phone repair layer.  Python strings are modelled as `List Char`; the
black-box collaborators (the entity-detection model and the realistic
fake-value corpus) are passed in as parameters, exactly as the spec
treats them (external collaborators producing spans resp. values).
-/

namespace Celarium

/-- Python strings, as character lists. -/
abbrev Str := List Char

/-! ## Python `str.replace` (used by `restore_logic`, src/main.py lines 239-244)

`replaceAll pat rep s` models Python `s.replace(pat, rep)`: scan left to
right, replace each non-overlapping occurrence of `pat`.  Implemented with
explicit fuel (initialised to `s.length`) so that it is structurally
recursive and hence computable by the kernel; `replaceAllFuel_congr` shows
the fuel is irrelevant once it dominates the length.  (For `pat = []`
Python would interleave `rep` everywhere; the code only ever calls
`replace` with nonempty fake values, and our equations carry `pat ≠ []`.) -/
def replaceAllFuel (pat rep : Str) : Nat → Str → Str
  | 0, s => s
  | _ + 1, [] => []
  | fuel + 1, c :: s =>
    if pat ≠ [] ∧ pat.isPrefixOf (c :: s) = true then
      rep ++ replaceAllFuel pat rep fuel ((c :: s).drop pat.length)
    else
      c :: replaceAllFuel pat rep fuel s

/-- Python `s.replace(pat, rep)`. -/
def replaceAll (pat rep : Str) (s : Str) : Str :=
  replaceAllFuel pat rep s.length s

theorem replaceAllFuel_congr (pat rep : Str) :
    ∀ (f₁ : Nat) (s : Str) (f₂ : Nat), s.length ≤ f₁ → s.length ≤ f₂ →
      replaceAllFuel pat rep f₁ s = replaceAllFuel pat rep f₂ s := by
  intro f₁
  induction f₁ with
  | zero =>
    intro s f₂ h₁ _
    have hs : s = [] := List.length_eq_zero.mp (Nat.le_zero.mp h₁)
    subst hs
    cases f₂ <;> rfl
  | succ f ih =>
    intro s f₂ h₁ h₂
    cases s with
    | nil => cases f₂ <;> rfl
    | cons c s =>
      cases f₂ with
      | zero => simp at h₂
      | succ f₂ =>
        simp only [replaceAllFuel]
        by_cases hcond : pat ≠ [] ∧ pat.isPrefixOf (c :: s) = true
        · simp only [if_pos hcond]
          have hplen : 1 ≤ pat.length := by
            cases pat with
            | nil => exact absurd rfl hcond.1
            | cons _ _ => simp
          have hlen : ((c :: s).drop pat.length).length ≤ f := by
            simp only [List.length_drop, List.length_cons]
            simp only [List.length_cons] at h₁
            omega
          have hlen₂ : ((c :: s).drop pat.length).length ≤ f₂ := by
            simp only [List.length_drop, List.length_cons]
            simp only [List.length_cons] at h₂
            omega
          rw [ih _ _ hlen hlen₂]
        · simp only [if_neg hcond]
          have hlen : s.length ≤ f := by simp only [List.length_cons] at h₁; omega
          have hlen₂ : s.length ≤ f₂ := by simp only [List.length_cons] at h₂; omega
          rw [ih _ _ hlen hlen₂]

theorem replaceAll_nil (pat rep : Str) : replaceAll pat rep [] = [] := rfl

theorem replaceAll_pos (pat rep : Str) (c : Char) (s : Str)
    (hne : pat ≠ []) (hpre : pat.isPrefixOf (c :: s) = true) :
    replaceAll pat rep (c :: s) = rep ++ replaceAll pat rep ((c :: s).drop pat.length) := by
  have hplen : 1 ≤ pat.length := by
    cases pat with
    | nil => exact absurd rfl hne
    | cons _ _ => simp
  unfold replaceAll
  simp only [List.length_cons, replaceAllFuel, if_pos (And.intro hne hpre)]
  congr 1
  exact replaceAllFuel_congr pat rep s.length _ _
    (by simp only [List.length_drop, List.length_cons]; omega) (le_refl _)

theorem replaceAll_neg (pat rep : Str) (c : Char) (s : Str)
    (h : ¬(pat ≠ [] ∧ pat.isPrefixOf (c :: s) = true)) :
    replaceAll pat rep (c :: s) = c :: replaceAll pat rep s := by
  unfold replaceAll
  simp only [List.length_cons, replaceAllFuel, if_neg h]

/-- `pat` is a prefix of `pat ++ v`. -/
theorem isPrefixOf_append_self (pat v : Str) : pat.isPrefixOf (pat ++ v) = true := by
  induction pat with
  | nil => simp [List.isPrefixOf]
  | cons c p ih => simpa [List.isPrefixOf] using ih

/-- If `pat` occurs nowhere in `s` (no position of `s` starts an occurrence),
`replace` leaves `s` unchanged. -/
theorem replaceAll_of_no_occur (pat rep : Str) (hne : pat ≠ []) :
    ∀ s : Str, (∀ i < s.length, ¬ pat.isPrefixOf (s.drop i) = true) →
      replaceAll pat rep s = s := by
  intro s
  induction s with
  | nil => intro _; rfl
  | cons c s ih =>
    intro h
    have h0 : ¬ pat.isPrefixOf (c :: s) = true := by
      have := h 0 (by simp)
      simpa using this
    rw [replaceAll_neg pat rep c s (by intro hc; exact h0 hc.2)]
    have : ∀ i < s.length, ¬ pat.isPrefixOf (s.drop i) = true := by
      intro i hi
      have := h (i + 1) (by simp; omega)
      simpa using this
    rw [ih this]

/-- The central single-replacement lemma: if the first occurrence of `pat` in
`u ++ pat ++ v` is exactly at offset `u.length` (no occurrence starts inside
`u`, none inside `v`), then `replace` rewrites exactly that occurrence. -/
theorem replaceAll_single (pat rep : Str) (hne : pat ≠ []) :
    ∀ (u v : Str),
      (∀ i < u.length, ¬ pat.isPrefixOf ((u ++ pat ++ v).drop i) = true) →
      (∀ i < v.length, ¬ pat.isPrefixOf (v.drop i) = true) →
      replaceAll pat rep (u ++ pat ++ v) = u ++ rep ++ v := by
  intro u
  induction u with
  | nil =>
    intro v _ hv
    simp only [List.nil_append]
    cases pat with
    | nil => exact absurd rfl hne
    | cons p pt =>
      rw [List.cons_append, replaceAll_pos _ rep p (pt ++ v) hne
        (by rw [← List.cons_append]; exact isPrefixOf_append_self _ v)]
      rw [← List.cons_append, List.drop_left' (by simp)]
      rw [replaceAll_of_no_occur _ rep hne v hv]
  | cons a u ih =>
    intro v h hv
    have h0 : ¬ pat.isPrefixOf ((a :: u) ++ pat ++ v) = true := by
      have := h 0 (by simp)
      simpa using this
    rw [List.cons_append, List.cons_append]
    rw [replaceAll_neg pat rep a (u ++ pat ++ v) (by
      intro hc
      exact h0 (by rw [List.cons_append, List.cons_append]; exact hc.2))]
    rw [ih v (by
      intro i hi
      have := h (i + 1) (by simp; omega)
      rw [List.cons_append, List.cons_append] at this
      simpa using this) hv]
    simp

/-! ## Exact-substring restoration (src/main.py `restore_logic`, lines 239-244)

```python
def restore_logic(mapping: dict, text: str) -> str:
    restored = text
    for fake_val, real_val in mapping.items():
        restored = restored.replace(fake_val, real_val)
    return restored
```
Python dicts iterate in insertion order, so the mapping is a list of
`(fake, original)` pairs folded left to right. -/
def restore_logic (mapping : List (Str × Str)) (text : Str) : Str :=
  mapping.foldl (fun restored p => replaceAll p.1 p.2 restored) text

/-! ## Python dict assignment

`mapping[k] = v` on a Python dict: if `k` is present its value is updated
in place (keeping its position), otherwise `(k, v)` is appended. -/
def dictInsert (m : List (Str × Str)) (k v : Str) : List (Str × Str) :=
  if m.any (fun p => p.1 == k) then
    m.map (fun p => if p.1 = k then (k, v) else p)
  else
    m ++ [(k, v)]

/-- `dictInsert` never loses key distinctness (dict keys are a set). -/
theorem dictInsert_nodup_keys (m : List (Str × Str)) (k v : Str)
    (h : (m.map Prod.fst).Nodup) : ((dictInsert m k v).map Prod.fst).Nodup := by
  unfold dictInsert
  by_cases hmem : m.any (fun p => p.1 == k) = true
  · rw [if_pos hmem]
    have : (m.map (fun p => if p.1 = k then (k, v) else p)).map Prod.fst = m.map Prod.fst := by
      rw [List.map_map]
      apply List.map_congr_left
      intro p _
      by_cases hp : p.1 = k
      · simp [hp]
      · simp [hp]
    rw [this]
    exact h
  · rw [if_neg hmem]
    have hknot : k ∉ m.map Prod.fst := by
      intro hk
      apply hmem
      rw [List.any_eq_true]
      obtain ⟨p, hp, hpk⟩ := List.mem_map.mp hk
      exact ⟨p, hp, by simp [hpk]⟩
    simp only [List.map_append, List.map_cons, List.map_nil]
    rw [List.nodup_append]
    exact ⟨h, List.nodup_singleton k, by simpa using hknot⟩

/-- When the key is fresh, dict assignment is a plain append. -/
theorem dictInsert_of_not_mem (m : List (Str × Str)) (k v : Str)
    (h : k ∉ m.map Prod.fst) : dictInsert m k v = m ++ [(k, v)] := by
  unfold dictInsert
  rw [if_neg]
  intro hany
  rw [List.any_eq_true] at hany
  obtain ⟨p, hp, hpk⟩ := hany
  exact h (List.mem_map.mpr ⟨p, hp, by simpa using hpk⟩)

/-! ## Substitution (src/main.py `anonymize_logic`, lines 178-207)

The replacement loop walks the merged spans left to right with a cursor,
appending the untouched gap `text[cursor:start]`, the generated fake value,
and finally the tail `text[cursor:]`, while recording
`mapping[fake_value] = text[start:end]`.  The merged spans together with
the fake value generated for each (the generator is a black-box corpus
source) are passed in as `MItem`s. -/

/-- Python slice `text[s:e]` for natural indices (clamped, empty if `e ≤ s`). -/
def sliceStr (text : Str) (s e : Nat) : Str := (text.drop s).take (e - s)

/-- A merged span (`start`, `end`) paired with the fake value generated for it.
(`end` is a Lean keyword; the field is called `stop`.) -/
structure MItem where
  start : Nat
  stop : Nat
  fake : Str
deriving DecidableEq

/-- The `parts` accumulation of src/main.py lines 179-207: gap before each
span, then the fake value, cursor moved to the span's end, and the remaining
text appended at the end. -/
def anonText (text : Str) : Nat → List MItem → Str
  | cursor, [] => text.drop cursor
  | cursor, it :: rest =>
    (text.drop cursor).take (it.start - cursor) ++ it.fake ++ anonText text it.stop rest

/-- The `mapping[fake_value] = original_value` accumulation of the same loop
(`original_value = text[start:end]`, line 189/199). -/
def anonMap (text : Str) (items : List MItem) : List (Str × Str) :=
  items.foldl (fun m it => dictInsert m it.fake (sliceStr text it.start it.stop)) []

/-! ### Gap/fake/original triples

For the round-trip analysis each span contributes a triple: the untouched
gap before it, its fake value, and the original text it covered. -/

structure Tri where
  gap : Str
  fake : Str
  orig : Str

def triplesOf (text : Str) : Nat → List MItem → List Tri
  | _, [] => []
  | cursor, it :: rest =>
    ⟨sliceStr text cursor it.start, it.fake, sliceStr text it.start it.stop⟩ ::
      triplesOf text it.stop rest

/-- The cursor position after processing all spans. -/
def finalCur : Nat → List MItem → Nat
  | c, [] => c
  | _, it :: rest => finalCur it.stop rest

/-- Interleave gaps with fake values (the anonymized text shape). -/
def interGF (ts : List Tri) (tail : Str) : Str :=
  ts.foldr (fun t acc => t.gap ++ t.fake ++ acc) tail

/-- Interleave gaps with original values (the source text shape). -/
def interGR (ts : List Tri) (tail : Str) : Str :=
  ts.foldr (fun t acc => t.gap ++ t.orig ++ acc) tail

theorem anonText_eq_interGF (text : Str) :
    ∀ (items : List MItem) (cursor : Nat),
      anonText text cursor items =
        interGF (triplesOf text cursor items) (text.drop (finalCur cursor items)) := by
  intro items
  induction items with
  | nil => intro cursor; rfl
  | cons it rest ih =>
    intro cursor
    simp only [anonText, triplesOf, interGF, finalCur, List.foldr_cons]
    rw [← interGF, ← ih it.stop]
    rfl

/-- Well-formed span layout: the cursor never moves backwards and spans are
ordered (`cursor ≤ start ≤ end` rolling forward). -/
def SpansOrdered : Nat → List MItem → Prop
  | _, [] => True
  | c, it :: rest => c ≤ it.start ∧ it.start ≤ it.stop ∧ SpansOrdered it.stop rest

instance spansOrderedDec : ∀ (c : Nat) (items : List MItem), Decidable (SpansOrdered c items)
  | _, [] => .isTrue trivial
  | c, it :: rest =>
    have : Decidable (SpansOrdered it.stop rest) := spansOrderedDec it.stop rest
    by unfold SpansOrdered; infer_instance

theorem drop_eq_take_append_drop (text : Str) (c s : Nat) (h : c ≤ s) :
    (text.drop c).take (s - c) ++ text.drop s = text.drop c := by
  conv_rhs => rw [← List.take_append_drop (s - c) (text.drop c)]
  congr 1
  rw [List.drop_drop]
  congr 1
  omega

/-- Interleaving the gaps with the original values reconstructs the text. -/
theorem interGR_triplesOf (text : Str) :
    ∀ (items : List MItem) (cursor : Nat), SpansOrdered cursor items →
      interGR (triplesOf text cursor items) (text.drop (finalCur cursor items)) =
        text.drop cursor := by
  intro items
  induction items with
  | nil => intro cursor _; rfl
  | cons it rest ih =>
    intro cursor hord
    obtain ⟨h1, h2, h3⟩ := hord
    simp only [triplesOf, interGR, finalCur, List.foldr_cons]
    rw [← interGR, ih it.stop h3]
    unfold sliceStr
    rw [List.append_assoc, drop_eq_take_append_drop text it.start it.stop h2,
      drop_eq_take_append_drop text cursor it.start h1]

/-! ### Freshness

`Fresh P ts tail` says: walking the triples left to right with `P` the
already-restored prefix, each fake value is nonempty, its first occurrence
in the current text is exactly its own replacement site, and it does not
occur in the yet-unprocessed suffix.  This is precisely what the exact
replacement layer needs to undo the substitution. -/
def Fresh : Str → List Tri → Str → Prop
  | _, [], _ => True
  | P, t :: ts, tail =>
    t.fake ≠ [] ∧
    (∀ i < (P ++ t.gap).length,
      ¬ t.fake.isPrefixOf (((P ++ t.gap) ++ t.fake ++ interGF ts tail).drop i) = true) ∧
    (∀ i < (interGF ts tail).length,
      ¬ t.fake.isPrefixOf ((interGF ts tail).drop i) = true) ∧
    Fresh ((P ++ t.gap) ++ t.orig) ts tail

instance freshDec : ∀ (P : Str) (ts : List Tri) (tail : Str), Decidable (Fresh P ts tail)
  | _, [], _ => .isTrue trivial
  | P, t :: ts, tail =>
    have : Decidable (Fresh ((P ++ t.gap) ++ t.orig) ts tail) := freshDec _ ts tail
    by unfold Fresh; infer_instance

/-- The main restoration induction: under freshness, folding the exact
replacements over the interleaved text restores every original value. -/
theorem restore_fold (ts : List Tri) :
    ∀ (P tail : Str), Fresh P ts tail →
      (ts.map (fun t => (t.fake, t.orig))).foldl
          (fun restored p => replaceAll p.1 p.2 restored) (P ++ interGF ts tail) =
        P ++ interGR ts tail := by
  induction ts with
  | nil => intro P tail _; rfl
  | cons t ts ih =>
    intro P tail hf
    obtain ⟨hne, hfirst, hnotail, hrest⟩ := hf
    simp only [List.map_cons, List.foldl_cons]
    have hstep : replaceAll t.fake t.orig (P ++ interGF (t :: ts) tail) =
        ((P ++ t.gap) ++ t.orig) ++ interGF ts tail := by
      have hshape : P ++ interGF (t :: ts) tail =
          (P ++ t.gap) ++ t.fake ++ interGF ts tail := by
        simp [interGF, List.append_assoc]
      rw [hshape, replaceAll_single t.fake t.orig hne (P ++ t.gap) (interGF ts tail)
        hfirst hnotail]
    rw [hstep, ih ((P ++ t.gap) ++ t.orig) tail hrest]
    simp [interGR, List.append_assoc]

/-- Every fake value of a triple list is a segment of its interleaving. -/
theorem mem_interGF (tail : Str) :
    ∀ (ts : List Tri) (b : Tri), b ∈ ts →
      ∃ X Y, interGF ts tail = X ++ b.fake ++ Y := by
  intro ts
  induction ts with
  | nil => intro b hb; simp at hb
  | cons t ts ih =>
    intro b hb
    rcases List.mem_cons.mp hb with hb | hb
    · subst hb
      exact ⟨b.gap, interGF ts tail, by simp [interGF, List.append_assoc]⟩
    · obtain ⟨X, Y, hXY⟩ := ih b hb
      refine ⟨(t.gap ++ t.fake) ++ X, Y, ?_⟩
      simp only [interGF, List.foldr_cons]
      rw [← interGF, hXY]
      simp [List.append_assoc]

/-- Freshness forces all fake values in a mapping to be pairwise distinct. -/
theorem fresh_fakes_nodup :
    ∀ (ts : List Tri) (P tail : Str), Fresh P ts tail →
      (ts.map (fun t => t.fake)).Nodup := by
  intro ts
  induction ts with
  | nil => intro _ _ _; simp
  | cons t ts ih =>
    intro P tail hf
    obtain ⟨hne, _, hnotail, hrest⟩ := hf
    simp only [List.map_cons, List.nodup_cons]
    constructor
    · intro hmem
      obtain ⟨b, hb, hbf⟩ := List.mem_map.mp hmem
      obtain ⟨X, Y, hXY⟩ := mem_interGF tail ts b hb
      have hlen : X.length < (interGF ts tail).length := by
        rw [hXY]
        have : 1 ≤ b.fake.length := by
          cases hfb : b.fake with
          | nil => exact absurd (hbf.symm.trans hfb) hne
          | cons _ _ => simp
        simp [List.length_append]
        omega
      apply hnotail X.length hlen
      rw [hXY, List.append_assoc, List.drop_left' rfl, ← hbf]
      exact isPrefixOf_append_self _ _
    · exact ih ((P ++ t.gap) ++ t.orig) tail hrest

/-- Folding Python dict assignment over items with pairwise-distinct fresh
keys builds the plain association list. -/
theorem foldl_dictInsert_eq (text : Str) :
    ∀ (items : List MItem) (acc : List (Str × Str)),
      (items.map (fun it => it.fake)).Nodup →
      (∀ it ∈ items, it.fake ∉ acc.map Prod.fst) →
      items.foldl (fun m it => dictInsert m it.fake (sliceStr text it.start it.stop)) acc =
        acc ++ items.map (fun it => (it.fake, sliceStr text it.start it.stop)) := by
  intro items
  induction items with
  | nil => intro acc _ _; simp
  | cons it items ih =>
    intro acc hnd hfreshk
    simp only [List.foldl_cons]
    rw [dictInsert_of_not_mem _ _ _ (hfreshk it (List.mem_cons_self it items))]
    simp only [List.map_cons, List.nodup_cons] at hnd
    rw [ih (acc ++ [(it.fake, sliceStr text it.start it.stop)]) hnd.2 ?_]
    · simp
    · intro b hb
      simp only [List.map_append, List.mem_append]
      rintro (hmem | hmem)
      · exact hfreshk b (List.mem_cons_of_mem it hb) hmem
      · simp only [List.map_cons, List.map_nil, List.mem_singleton] at hmem
        exact hnd.1 (List.mem_map.mpr ⟨b, hb, hmem⟩)

theorem triplesOf_map_fake (text : Str) :
    ∀ (items : List MItem) (cursor : Nat),
      (triplesOf text cursor items).map (fun t => t.fake) =
        items.map (fun it => it.fake) := by
  intro items
  induction items with
  | nil => intro _; rfl
  | cons it items ih => intro cursor; simp [triplesOf, ih]

theorem triplesOf_map_pair (text : Str) :
    ∀ (items : List MItem) (cursor : Nat),
      (triplesOf text cursor items).map (fun t => (t.fake, t.orig)) =
        items.map (fun it => (it.fake, sliceStr text it.start it.stop)) := by
  intro items
  induction items with
  | nil => intro _; rfl
  | cons it items ih => intro cursor; simp [triplesOf, ih]

/-- Round trip under freshness: restoring the unmodified anonymized text with
the recorded mapping reproduces the source text exactly. -/
theorem restore_of_fresh (text : Str) (items : List MItem)
    (hord : SpansOrdered 0 items)
    (hfresh : Fresh [] (triplesOf text 0 items) (text.drop (finalCur 0 items))) :
    restore_logic (anonMap text items) (anonText text 0 items) = text := by
  have hnd : ((triplesOf text 0 items).map (fun t => t.fake)).Nodup :=
    fresh_fakes_nodup _ [] _ hfresh
  rw [triplesOf_map_fake] at hnd
  have hmap : anonMap text items =
      (triplesOf text 0 items).map (fun t => (t.fake, t.orig)) := by
    unfold anonMap
    rw [foldl_dictInsert_eq text items [] hnd (by intro _ _ h; simp at h)]
    rw [triplesOf_map_pair]
    simp
  rw [anonText_eq_interGF, hmap]
  unfold restore_logic
  have := restore_fold (triplesOf text 0 items) [] (text.drop (finalCur 0 items)) hfresh
  simp only [List.nil_append] at this
  rw [this, interGR_triplesOf text items 0 hord, List.drop_zero]

/-! ## Span detection and merging

A candidate finding as built by the Span Detector in `analyze_and_replace`
(src/app.py lines 118-129): a dict `{start, end, label, score}`.  The code
only ever compares scores (never does arithmetic on them), so the float
scores are modelled as rationals.  `end` is a Lean keyword, so the field is
named `stop`. -/
structure Finding where
  start : Nat
  stop : Nat
  label : String
  score : ℚ
deriving DecidableEq

/-- A presidio analyzer result tuple `(r.start, r.end, r.entity_type)` as in
src/main.py line 160. -/
structure PSpan where
  start : Nat
  stop : Nat
  etype : String
deriving DecidableEq

/-! Python `list.sort(key=...)` is a stable sort with respect to the key
order; a stable sort's output is uniquely determined by the key preorder, so
we model it with insertion sort (Mathlib's `insertionSort` inserts each
element before strictly later equal-key elements, i.e. it is stable). -/

/-- Sort key of src/app.py line 132: `key=lambda x: x["start"]`. -/
def startLe (a b : Finding) : Prop := a.start ≤ b.start

instance : DecidableRel startLe := fun a b => Nat.decLe a.start b.start

instance : IsTotal Finding startLe := ⟨fun a b => Nat.le_total a.start b.start⟩

instance : IsTrans Finding startLe := ⟨fun _ _ _ => Nat.le_trans⟩

def sortByStart (fs : List Finding) : List Finding := fs.insertionSort startLe

/-- Sort key of src/main.py line 161: `key=lambda x: (x[0], -(x[1] - x[0]))`
(start ascending, length descending on ties), as the lexicographic order on
the key tuples. -/
def mainKeyLe (a b : PSpan) : Prop :=
  a.start < b.start ∨
    (a.start = b.start ∧ (b.stop : Int) - b.start ≤ (a.stop : Int) - a.start)

instance : DecidableRel mainKeyLe := fun _ _ => by unfold mainKeyLe; infer_instance

instance : IsTotal PSpan mainKeyLe := ⟨by intro a b; unfold mainKeyLe; omega⟩

instance : IsTrans PSpan mainKeyLe := ⟨by intro a b c; unfold mainKeyLe; omega⟩

def sortSpansMain (ss : List PSpan) : List PSpan := ss.insertionSort mainKeyLe

/-- One step of the overlap-resolution scan shared verbatim (modulo the
replacement test `better`, the only point where the two files differ) by
src/app.py lines 134-143 and src/main.py lines 163-176: a candidate starting
before the last accepted span's end replaces it when `better`, else is
dropped; a non-overlapping candidate is appended. -/
def scanStep {α : Type} (stt stp : α → Nat) (better : α → α → Prop)
    [DecidableRel better] (merged : List α) (f : α) : List α :=
  match merged.getLast? with
  | none => [f]
  | some last =>
    if stt f < stp last then
      if better f last then merged.dropLast ++ [f] else merged
    else
      merged ++ [f]

/-- The whole scan: fold `scanStep` over the sorted candidates. -/
def overlapScan {α : Type} (stt stp : α → Nat) (better : α → α → Prop)
    [DecidableRel better] (fs : List α) : List α :=
  fs.foldl (scanStep stt stp better) []

/-- The merger of src/app.py lines 131-143: sort by start (stable), then scan;
an overlapping candidate replaces the last accepted span iff
`f["score"] > last["score"] or (f["end"]-f["start"]) > (last["end"]-last["start"])`. -/
def mergeFindings (fs : List Finding) : List Finding :=
  overlapScan Finding.start Finding.stop
    (fun f last => f.score > last.score ∨
      (f.stop : Int) - f.start > (last.stop : Int) - last.start)
    (sortByStart fs)

/-- The merger of src/main.py lines 159-176: sort by (start asc, length desc),
then scan; an overlapping candidate replaces the last accepted span iff
`(end - start) > (last_end - last_start)`. -/
def mergeSpansMain (ss : List PSpan) : List PSpan :=
  overlapScan PSpan.start PSpan.stop
    (fun f last => (f.stop : Int) - f.start > (last.stop : Int) - last.start)
    (sortSpansMain ss)

theorem scanStep_chain {α : Type} (stt stp : α → Nat) (better : α → α → Prop)
    [DecidableRel better] (acc : List α) (f : α)
    (hch : List.Chain' (fun a b => stp a ≤ stt b) acc)
    (hle : ∀ a ∈ acc, stt a ≤ stt f) :
    List.Chain' (fun a b => stp a ≤ stt b) (scanStep stt stp better acc f) ∧
      (∀ x ∈ scanStep stt stp better acc f, x ∈ acc ∨ x = f) := by
  unfold scanStep
  cases hm : acc.getLast? with
  | none =>
    simp only []
    constructor
    · exact List.chain'_singleton f
    · intro x hx
      simp only [List.mem_singleton] at hx
      exact Or.inr hx
  | some last =>
    have hacc : acc.dropLast ++ [last] = acc := List.dropLast_append_getLast? last hm
    have hlast_mem : last ∈ acc := by
      rw [← hacc]; simp
    have hch2 : List.Chain' (fun a b => stp a ≤ stt b) (acc.dropLast ++ [last]) := by
      rw [hacc]
      exact hch
    have hsplit := List.chain'_append.mp hch2
    by_cases hov : stt f < stp last
    · simp only [if_pos hov]
      by_cases hb : better f last
      · simp only [if_pos hb]
        constructor
        · rw [List.chain'_append]
          refine ⟨hsplit.1, List.chain'_singleton f, ?_⟩
          intro x hx y hy
          simp only [List.head?_cons, Option.mem_some_iff] at hy
          subst hy
          have := hsplit.2.2 x hx last (by simp)
          exact le_trans this (hle last hlast_mem)
        · intro x hx
          rcases List.mem_append.mp hx with hx | hx
          · exact Or.inl (List.mem_of_mem_dropLast hx)
          · simp only [List.mem_singleton] at hx
            exact Or.inr hx
      · simp only [if_neg hb]
        exact ⟨hch, fun x hx => Or.inl hx⟩
    · simp only [if_neg hov]
      constructor
      · rw [List.chain'_append]
        refine ⟨hch, List.chain'_singleton f, ?_⟩
        intro x hx y hy
        simp only [List.head?_cons, Option.mem_some_iff] at hy
        subst hy
        rw [hm, Option.mem_some_iff] at hx
        subst hx
        omega
      · intro x hx
        rcases List.mem_append.mp hx with hx | hx
        · exact Or.inl hx
        · simp only [List.mem_singleton] at hx
          exact Or.inr hx

theorem overlapScan_go {α : Type} (stt stp : α → Nat) (better : α → α → Prop)
    [DecidableRel better] :
    ∀ (fs acc : List α),
      List.Chain' (fun a b => stp a ≤ stt b) acc →
      (∀ a ∈ acc, ∀ f ∈ fs, stt a ≤ stt f) →
      List.Pairwise (fun a b => stt a ≤ stt b) fs →
      List.Chain' (fun a b => stp a ≤ stt b)
          (fs.foldl (scanStep stt stp better) acc) ∧
        (∀ x ∈ fs.foldl (scanStep stt stp better) acc, x ∈ acc ∨ x ∈ fs) := by
  intro fs
  induction fs with
  | nil => intro acc hch _ _; exact ⟨hch, fun x hx => Or.inl hx⟩
  | cons f rest ih =>
    intro acc hch hle hpw
    simp only [List.foldl_cons]
    have hstep := scanStep_chain stt stp better acc f hch
      (fun a ha => hle a ha f (List.mem_cons_self f rest))
    rw [List.pairwise_cons] at hpw
    have hrec := ih (scanStep stt stp better acc f) hstep.1 (by
      intro a ha g hg
      rcases hstep.2 a ha with ha' | ha'
      · exact hle a ha' g (List.mem_cons_of_mem f hg)
      · subst ha'
        exact hpw.1 g hg) hpw.2
    refine ⟨hrec.1, ?_⟩
    intro x hx
    rcases hrec.2 x hx with hx' | hx'
    · rcases hstep.2 x hx' with h | h
      · exact Or.inl h
      · exact Or.inr (h ▸ List.mem_cons_self f rest)
    · exact Or.inr (List.mem_cons_of_mem f hx')

/-- Transfer a chain relation along a pointwise property of the members. -/
theorem chain'_imp_of_mem {α : Type} {R S : α → α → Prop} {P : α → Prop} :
    ∀ {l : List α}, List.Chain' R l → (∀ x ∈ l, P x) →
      (∀ a b, P a → P b → R a b → S a b) → List.Chain' S l := by
  intro l
  induction l with
  | nil => intro _ _ _; exact List.chain'_nil
  | cons a t ih =>
    cases t with
    | nil => intro _ _ _; exact List.chain'_singleton a
    | cons b t2 =>
      intro h hp himp
      rw [List.chain'_cons] at h ⊢
      refine ⟨himp a b (hp a (by simp)) (hp b (by simp)) h.1, ?_⟩
      exact ih h.2 (fun x hx => hp x (List.mem_cons_of_mem a hx)) himp

theorem mergeFindings_chain (fs : List Finding) :
    List.Chain' (fun a b => a.stop ≤ b.start) (mergeFindings fs) ∧
      ∀ x ∈ mergeFindings fs, x ∈ fs := by
  have hpw : List.Pairwise (fun a b : Finding => a.start ≤ b.start) (sortByStart fs) :=
    List.sorted_insertionSort startLe fs
  unfold mergeFindings overlapScan
  have h := overlapScan_go Finding.start Finding.stop
    (fun f last => f.score > last.score ∨
      (f.stop : Int) - f.start > (last.stop : Int) - last.start)
    (sortByStart fs) [] List.chain'_nil (by intro a ha; simp at ha) hpw
  refine ⟨h.1, ?_⟩
  intro x hx
  rcases h.2 x hx with h' | h'
  · simp at h'
  · exact (List.perm_insertionSort startLe fs).mem_iff.mp h'

theorem mergeSpansMain_chain (ss : List PSpan) :
    List.Chain' (fun a b => a.stop ≤ b.start) (mergeSpansMain ss) ∧
      ∀ x ∈ mergeSpansMain ss, x ∈ ss := by
  have hpw : List.Pairwise (fun a b : PSpan => a.start ≤ b.start) (sortSpansMain ss) := by
    have := List.sorted_insertionSort mainKeyLe ss
    exact this.imp (by intro a b hab; unfold mainKeyLe at hab; omega)
  unfold mergeSpansMain overlapScan
  have h := overlapScan_go PSpan.start PSpan.stop
    (fun f last => (f.stop : Int) - f.start > (last.stop : Int) - last.start)
    (sortSpansMain ss) [] List.chain'_nil (by intro a ha; simp at ha) hpw
  refine ⟨h.1, ?_⟩
  intro x hx
  rcases h.2 x hx with h' | h'
  · simp at h'
  · exact (List.perm_insertionSort mainKeyLe ss).mem_iff.mp h'

/-! ## Substitution engine (src/app.py lines 165-171)

```python
replacements.sort(key=lambda x: x["start"], reverse=True)
text_chars = list(text)
for r in replacements:
    text_chars[r["start"]:r["end"]] = list(r["fake"])
return "".join(text_chars), mapping
```
-/

/-- A pending replacement `{start, end, fake}` (src/app.py line 163). -/
structure Repl where
  start : Nat
  stop : Nat
  fake : Str
deriving DecidableEq

/-- Python list slice assignment `text_chars[r.start:r.stop] = list(r.fake)`:
for natural (clamped) indices it deletes the segment `[start, max start stop)`
and splices the fake value in. -/
def spliceOne (cs : Str) (r : Repl) : Str :=
  cs.take r.start ++ r.fake ++ cs.drop (max r.start r.stop)

/-- Descending-start key of `sort(key=..., reverse=True)` (src/app.py 166). -/
def startGe (a b : Repl) : Prop := b.start ≤ a.start

instance : DecidableRel startGe := fun a b => Nat.decLe b.start a.start

instance : IsTotal Repl startGe := ⟨fun a b => (Nat.le_total b.start a.start)⟩

instance : IsTrans Repl startGe := ⟨fun _ _ _ h h' => Nat.le_trans h' h⟩

def startLt (a b : Repl) : Prop := a.start < b.start

instance : IsTrans Repl startLt := ⟨fun _ _ _ => Nat.lt_trans⟩

/-- Stable descending sort by start, then splice each replacement in
(back-to-front, so earlier offsets stay valid). -/
def applyRepls (text : Str) (rs : List Repl) : Str :=
  (rs.insertionSort startGe).foldl spliceOne text

/-- The gap-interleaving reconstruction the substitution must produce:
untouched slices of the original text interleaved with the fake values
(stated from the spec's frame property, to be compared with the splice loop). -/
def rebuilt (text : Str) : Nat → List Repl → Str
  | c, [] => text.drop c
  | c, r :: rest => (text.drop c).take (r.start - c) ++ r.fake ++ rebuilt text r.stop rest

theorem rebuilt_take (text : Str) (rs : List Repl) (c k : Nat) (hck : c ≤ k)
    (h : ∀ r ∈ rs, k ≤ r.start ∧ r.start ≤ text.length) :
    (rebuilt text c rs).take (k - c) = (text.drop c).take (k - c) := by
  cases rs with
  | nil => rfl
  | cons r rest =>
    obtain ⟨hks, hsl⟩ := h r (List.mem_cons_self r rest)
    simp only [rebuilt]
    rw [List.append_assoc, List.take_append_of_le_length (by
      simp only [List.length_take, List.length_drop]
      omega)]
    rw [List.take_take]
    congr 1
    omega

theorem rebuilt_drop (text : Str) (rs : List Repl) (c k : Nat) (hck : c ≤ k)
    (h : ∀ r ∈ rs, k ≤ r.start ∧ r.start ≤ text.length) :
    (rebuilt text c rs).drop (k - c) = rebuilt text k rs := by
  cases rs with
  | nil =>
    simp only [rebuilt]
    rw [List.drop_drop]
    congr 1
    omega
  | cons r rest =>
    obtain ⟨hks, hsl⟩ := h r (List.mem_cons_self r rest)
    simp only [rebuilt]
    rw [List.append_assoc, List.drop_append_of_le_length (by
      simp only [List.length_take, List.length_drop]
      omega)]
    rw [List.drop_take, List.drop_drop]
    have h1 : c + (k - c) = k := by omega
    have h2 : r.start - c - (k - c) = r.start - k := by omega
    rw [h1, h2, List.append_assoc]

/-- From a non-overlap chain, the head's end precedes every later start. -/
theorem chain_head_le (r : Repl) :
    ∀ rest : List Repl,
      List.Chain' (fun a b => a.stop ≤ b.start) (r :: rest) →
      (∀ x ∈ rest, x.start < x.stop) →
      ∀ x ∈ rest, r.stop ≤ x.start := by
  intro rest
  induction rest generalizing r with
  | nil => intro _ _ x hx; simp at hx
  | cons r1 rest2 ih =>
    intro hch hlt x hx
    rw [List.chain'_cons] at hch
    rcases List.mem_cons.mp hx with hx | hx
    · subst hx; exact hch.1
    · have := ih r1 hch.2 (fun y hy => hlt y (List.mem_cons_of_mem r1 hy)) x hx
      have hr1 := hlt r1 (List.mem_cons_self r1 rest2)
      omega

/-- Splicing back-to-front (the fold over the reversed ascending list)
produces exactly the gap interleaving. -/
theorem foldr_spliceOne_eq_rebuilt (text : Str) :
    ∀ rs : List Repl,
      List.Chain' (fun a b => a.stop ≤ b.start) rs →
      (∀ r ∈ rs, r.start < r.stop ∧ r.stop ≤ text.length) →
      rs.foldr (fun r acc => spliceOne acc r) text = rebuilt text 0 rs := by
  intro rs
  induction rs with
  | nil => intro _ _; rfl
  | cons r rest ih =>
    intro hch hok
    have hchr : List.Chain' (fun a b : Repl => a.stop ≤ b.start) rest := hch.tail
    have hokr : ∀ x ∈ rest, x.start < x.stop ∧ x.stop ≤ text.length :=
      fun x hx => hok x (List.mem_cons_of_mem r hx)
    have hrest_ge : ∀ x ∈ rest, r.stop ≤ x.start :=
      chain_head_le r rest hch (fun x hx => (hokr x hx).1)
    obtain ⟨hlt, hle⟩ := hok r (List.mem_cons_self r rest)
    simp only [List.foldr_cons]
    rw [ih hchr hokr]
    unfold spliceOne
    have hbound : ∀ x ∈ rest, r.start ≤ x.start ∧ x.start ≤ text.length := by
      intro x hx
      have h1 := hrest_ge x hx
      have h2 := (hokr x hx).1
      have h3 := (hokr x hx).2
      omega
    have hbound' : ∀ x ∈ rest, r.stop ≤ x.start ∧ x.start ≤ text.length := by
      intro x hx
      have h2 := (hokr x hx).1
      have h3 := (hokr x hx).2
      exact ⟨hrest_ge x hx, by omega⟩
    have htake := rebuilt_take text rest 0 r.start (Nat.zero_le _) hbound
    have hdrop := rebuilt_drop text rest 0 r.stop (Nat.zero_le _) hbound'
    simp only [Nat.sub_zero, List.drop_zero] at htake hdrop
    rw [htake, Nat.max_eq_right (Nat.le_of_lt hlt), hdrop]
    simp [rebuilt]

/-- Inserting an element strictly below everything in the list (w.r.t. the
descending order) lands at the end. -/
theorem orderedInsert_last (r : Repl) :
    ∀ m : List Repl, (∀ y ∈ m, ¬ startGe r y) →
      List.orderedInsert startGe r m = m ++ [r] := by
  intro m
  induction m with
  | nil => intro _; rfl
  | cons y ys ih =>
    intro h
    simp only [List.orderedInsert]
    rw [if_neg (h y (List.mem_cons_self y ys))]
    rw [ih (fun z hz => h z (List.mem_cons_of_mem y hz))]
    rfl

/-- On strictly ascending starts, the stable descending sort is reversal. -/
theorem insertionSort_desc_eq_reverse :
    ∀ rs : List Repl, List.Pairwise startLt rs →
      rs.insertionSort startGe = rs.reverse := by
  intro rs
  induction rs with
  | nil => intro _; rfl
  | cons r rest ih =>
    intro hpw
    rw [List.pairwise_cons] at hpw
    simp only [List.insertionSort]
    rw [ih hpw.2]
    rw [orderedInsert_last r rest.reverse (by
      intro y hy
      have := hpw.1 y (List.mem_reverse.mp hy)
      unfold startGe
      unfold startLt at this
      omega)]
    simp

/-- The substitution engine, on non-overlapping in-bounds spans, equals the
gap interleaving: every character outside the replaced spans is preserved
unchanged and in order. -/
theorem applyRepls_eq_rebuilt (text : Str) (rs : List Repl)
    (hch : List.Chain' (fun a b => a.stop ≤ b.start) rs)
    (hok : ∀ r ∈ rs, r.start < r.stop ∧ r.stop ≤ text.length) :
    applyRepls text rs = rebuilt text 0 rs := by
  have hpw : List.Pairwise startLt rs := by
    rw [← List.chain'_iff_pairwise]
    exact chain'_imp_of_mem (P := fun r : Repl => r.start < r.stop) hch
      (fun x hx => (hok x hx).1) (by intro a b ha _ hab; unfold startLt; omega)
  unfold applyRepls
  rw [insertionSort_desc_eq_reverse rs hpw, List.foldl_reverse]
  exact foldr_spliceOne_eq_rebuilt text rs hch hok

/-! ## Span detection with model fallback (src/app.py lines 118-129)

The regex source and the entity-model source run independently; the model
call sits in a bare `try/except: pass`, so a model failure contributes no
findings and the pipeline continues with the rule-based findings only.  The
two black-box sources are parameters: the rule findings as a list, the model
invocation as an `Except` value (exception/timeout = `error`). -/
def detectFindings (ruleFindings : List Finding)
    (modelResult : Except Unit (List Finding)) : List Finding :=
  ruleFindings ++ (match modelResult with
    | Except.ok preds => preds
    | Except.error _ => [])

/-- The analyzer invocation of src/main.py `anonymize_logic` (lines 151-154):

```python
try:
    analyzer_results = analyzer.analyze(text=text, language="en")
except Exception as e:
    raise HTTPException(status_code=500, detail=...)
```
The black-box presidio analyzer call is a parameter; a failure there is
re-raised as HTTP 500, aborting the request. -/
def analyzeMain (analyzerResult : Except Unit (List PSpan)) :
    Except Nat (List PSpan) :=
  match analyzerResult with
  | Except.ok results => Except.ok results
  | Except.error _ => Except.error 500

/-! ## Fake generation loop (src/app.py lines 145-163)

```python
for ent in merged:
    original = text[ent["start"]:ent["end"]]
    if original.lower() in ["person_name", ...]:
        continue
    fake_val = get_fake_value(ent["label"], context)
    if fake_val in used_fakes:
        fake_val = f"{fake_val}_{random.randint(1, 99)}"
    used_fakes.add(fake_val)
    mapping[fake_val] = original
    replacements.append({"start": ..., "end": ..., "fake": fake_val})
```
`get_fake_value` consumes the black-box corpus source (Faker) and the
session context; its successive outputs are a parameter `rawFakes : Nat → Str`
indexed by call number, and the random collision suffixes (digits of
`randint(1, 99)`) are a parameter `sufs : Nat → Str`. -/

/-- The denylist of structural JSON keys skipped at src/app.py line 154. -/
def JSON_KEYS : List Str :=
  ["person_name", "date_of_birth", "ssn", "mrn", "email", "phone", "address"].map
    String.toList

/-- Python `s.lower()` (ASCII; the denylist is ASCII). -/
def lowerStr (s : Str) : Str := s.map Char.toLower

def genLoop (text : Str) (rawFakes sufs : Nat → Str) :
    List Finding → Nat → List Str → List (Str × Str) → List Repl →
      List (Str × Str) × List Repl
  | [], _, _, mapping, repls => (mapping, repls)
  | ent :: rest, k, used, mapping, repls =>
    let original := sliceStr text ent.start ent.stop
    if lowerStr original ∈ JSON_KEYS then
      genLoop text rawFakes sufs rest k used mapping repls
    else
      let raw := rawFakes k
      let fakeVal := if raw ∈ used then raw ++ '_' :: sufs k else raw
      genLoop text rawFakes sufs rest (k + 1) (fakeVal :: used)
        (dictInsert mapping fakeVal original) (repls ++ [⟨ent.start, ent.stop, fakeVal⟩])

/-- `analyze_and_replace` (src/app.py lines 116-171): merge the findings,
generate fakes (with denylist skip and collision suffixing), then splice the
replacements back-to-front.  Detection sources are parameters (see
`detectFindings`). -/
def analyze_and_replace (text : Str) (findings : List Finding)
    (rawFakes sufs : Nat → Str) : Str × List (Str × Str) :=
  let merged := mergeFindings findings
  let (mapping, repls) := genLoop text rawFakes sufs merged 0 [] [] []
  (applyRepls text repls, mapping)

/-- The mapping keys accumulated by `genLoop` stay pairwise distinct
(`mapping` is a Python dict). -/
theorem genLoop_nodup_keys (text : Str) (rawFakes sufs : Nat → Str) :
    ∀ (ents : List Finding) (k : Nat) (used : List Str)
      (mapping : List (Str × Str)) (repls : List Repl),
      ((mapping.map Prod.fst).Nodup) →
      (((genLoop text rawFakes sufs ents k used mapping repls).1.map Prod.fst).Nodup) := by
  intro ents
  induction ents with
  | nil => intro _ _ _ _ h; exact h
  | cons ent rest ih =>
    intro k used mapping repls h
    unfold genLoop
    by_cases hskip : lowerStr (sliceStr text ent.start ent.stop) ∈ JSON_KEYS
    · rw [if_pos hskip]
      exact ih k used mapping repls h
    · rw [if_neg hskip]
      exact ih (k + 1) _ _ _ (dictInsert_nodup_keys mapping _ _ h)

/-! ## Session store (src/main.py lines 211-236)

```python
def get_session(session_id: str, api_key: str) -> dict:
    session = SESSIONS.get(session_id)
    if not session:
        raise HTTPException(status_code=404, detail="Session not found")
    if session["api_key"] != api_key:
        raise HTTPException(status_code=401, detail="Unauthorized")
    if datetime.now() - session["created"] > timedelta(hours=1):
        del SESSIONS[session_id]
        raise HTTPException(status_code=410, detail="Session expired")
    return session
```
The dict `SESSIONS` is modelled as a function from ids to optional records,
time in seconds (the 1 hour TTL is 3600), the raising of an `HTTPException`
as an `Except` status code, and the `del` mutation by returning the updated
store alongside the result. -/

structure SessionRec where
  mapping : List (Str × Str)
  created : Nat
  apiKey : String
deriving DecidableEq

abbrev Store := String → Option SessionRec

/-- The session TTL: `timedelta(hours=1)` in seconds. -/
def sessionTTL : Nat := 3600

def get_session (sessions : Store) (session_id api_key : String) (now : Nat) :
    Store × Except Nat SessionRec :=
  match sessions session_id with
  | none => (sessions, Except.error 404)
  | some s =>
    if s.apiKey ≠ api_key then
      (sessions, Except.error 401)
    else if sessionTTL < now - s.created then
      (fun x => if x = session_id then none else sessions x, Except.error 410)
    else
      (sessions, Except.ok s)

/-- The inline session check of the app.py restore endpoint
(src/app.py lines 227-229):

```python
session = SESSIONS.get(req.session_id)
if not session or session["api_key"] != api_key:
    raise HTTPException(404, "Session not found")
```
Both an absent session and an owner mismatch are reported as 404; no
expiration is consulted (the check takes no clock at all) and the store is
never modified. -/
def restoreLookupApp (sessions : Store) (session_id api_key : String) :
    Except Nat SessionRec :=
  match sessions session_id with
  | none => Except.error 404
  | some s => if s.apiKey ≠ api_key then Except.error 404 else Except.ok s

/-! ## Digit-normalized phone repair (src/app.py lines 234-296)

```python
def get_digits(s):
    return "".join(filter(str.isdigit, s))
...
for fake_full, real_full in mapping.items():
    f_digits = get_digits(fake_full)
    if len(f_digits) >= 10:
        phone_map[f_digits] = real_full
...
phone_pattern = r'(?:\+?1[\W_]?)?\(?\d{3}\)?[\W_]?\d{3}[\W_]?\d{4}'
def phone_replacer(match):
    found_num = match.group(0)
    found_digits = get_digits(found_num)
    for fake_digits, real_num in phone_map.items():
        if fake_digits in found_digits:
            return real_num
    return found_num
text = re.sub(phone_pattern, phone_replacer, text)
```
The regex is encoded as an explicit ordered-alternative matcher (`matchAt`):
each pattern element offers its possible consumptions in the preference
order of a backtracking regex engine (greedy `?`: present before absent),
`seqChoices` takes the first combination that lets the remainder succeed,
and `reSub` scans left to right replacing each leftmost match, continuing
after its end — precisely `re.sub`.  (ASCII reading of `\d`/`\W`/`isdigit`;
all values involved are ASCII.) -/

/-- Python `str.isdigit`, retained characters of `get_digits` (ASCII). -/
def get_digits (s : Str) : Str := s.filter Char.isDigit

/-- The regex class `[\W_]`: a non-word character (`\W = [^A-Za-z0-9_]`) or
an underscore. -/
def isSepChar (c : Char) : Bool := !(c.isAlphanum || c == '_') || c == '_'

/-- Exactly `n` digits at the head of the string (`\d{n}`). -/
def digitRun (n : Nat) (s : Str) : List Nat :=
  if (s.take n).length = n ∧ (s.take n).all Char.isDigit then [n] else []

/-- An optional single character of class `p` (`X?`): greedy, so presence is
preferred. -/
def optChoices (p : Char → Bool) (s : Str) : List Nat :=
  match s with
  | [] => [0]
  | c :: _ => if p c then [1, 0] else [0]

/-- The optional country-code group `(?:\+?1[\W_]?)?`: consumptions in greedy
backtracking preference order. -/
def plus1Choices (s : Str) : List Nat :=
  (match s with
   | '+' :: '1' :: c :: _ => if isSepChar c then [3, 2] else [2]
   | ['+', '1'] => [2]
   | _ => []) ++
  (match s with
   | '1' :: c :: _ => if isSepChar c then [2, 1] else [1]
   | ['1'] => [1]
   | _ => []) ++ [0]

/-- Sequence the pattern elements with backtracking: each element proposes
consumption lengths in preference order; take the first that lets the rest
of the pattern succeed. -/
def seqChoices : List (Str → List Nat) → Str → Option Nat
  | [], _ => some 0
  | e :: rest, s => (e s).findSome? (fun n => (seqChoices rest (s.drop n)).map (n + ·))

/-- The element sequence of `phone_pattern`
`(?:\+?1[\W_]?)?\(?\d{3}\)?[\W_]?\d{3}[\W_]?\d{4}`. -/
def phoneElems : List (Str → List Nat) :=
  [plus1Choices, optChoices (fun c => c == '('), digitRun 3,
    optChoices (fun c => c == ')'), optChoices isSepChar, digitRun 3,
    optChoices isSepChar, digitRun 4]

/-- Try to match `phone_pattern` at the head of `s`; `some n` is the length
of the (backtracking-preferred) match. -/
def matchAt (s : Str) : Option Nat := seqChoices phoneElems s

/-- `re.sub` scanning, fuelled (the pattern cannot match the empty string —
it ends in `\d{4}` — so the `n = 0` branch is unreachable and present only
to make the recursion obviously terminating). -/
def reSubFuel (repl : Str → Str) : Nat → Str → Str
  | 0, s => s
  | _ + 1, [] => []
  | fuel + 1, c :: s =>
    match matchAt (c :: s) with
    | some n =>
      if n = 0 then c :: reSubFuel repl fuel s
      else repl ((c :: s).take n) ++ reSubFuel repl fuel ((c :: s).drop n)
    | none => c :: reSubFuel repl fuel s

/-- `re.sub(phone_pattern, repl, s)`. -/
def reSub (repl : Str → Str) (s : Str) : Str := reSubFuel repl s.length s

theorem reSubFuel_congr (repl : Str → Str) :
    ∀ (f₁ : Nat) (s : Str) (f₂ : Nat), s.length ≤ f₁ → s.length ≤ f₂ →
      reSubFuel repl f₁ s = reSubFuel repl f₂ s := by
  intro f₁
  induction f₁ with
  | zero =>
    intro s f₂ h₁ _
    have hs : s = [] := List.length_eq_zero.mp (Nat.le_zero.mp h₁)
    subst hs
    cases f₂ <;> rfl
  | succ f ih =>
    intro s f₂ h₁ h₂
    cases s with
    | nil => cases f₂ <;> rfl
    | cons c s =>
      cases f₂ with
      | zero => simp at h₂
      | succ f₂ =>
        simp only [reSubFuel]
        simp only [List.length_cons] at h₁ h₂
        cases hm : matchAt (c :: s) with
        | none => rw [ih s f₂ (by omega) (by omega)]
        | some n =>
          by_cases hn : n = 0
          · simp only [if_pos hn]
            rw [ih s f₂ (by omega) (by omega)]
          · simp only [if_neg hn]
            rw [ih ((c :: s).drop n) f₂ (by simp; omega) (by simp; omega)]

theorem reSub_cons_none (repl : Str → Str) (c : Char) (s : Str)
    (h : matchAt (c :: s) = none) :
    reSub repl (c :: s) = c :: reSub repl s := by
  unfold reSub
  simp only [List.length_cons, reSubFuel, h]

theorem reSub_cons_some (repl : Str → Str) (c : Char) (s : Str) (n : Nat)
    (h : matchAt (c :: s) = some n) (hn : n ≠ 0) :
    reSub repl (c :: s) = repl ((c :: s).take n) ++ reSub repl ((c :: s).drop n) := by
  unfold reSub
  simp only [List.length_cons, reSubFuel, h, if_neg hn]
  congr 1
  exact reSubFuel_congr repl s.length _ _ (by simp; omega) (le_refl _)

/-- The scanning behaviour of `re.sub`: if no match starts inside `pre` and
the pattern matches exactly `m` at the start of `m ++ post`, then the match
is replaced in its entirety and scanning continues after it. -/
theorem reSub_scan (repl : Str → Str) :
    ∀ (pre m post : Str),
      (∀ i < pre.length, matchAt ((pre ++ m ++ post).drop i) = none) →
      matchAt (m ++ post) = some m.length →
      m ≠ [] →
      reSub repl (pre ++ m ++ post) = pre ++ repl m ++ reSub repl post := by
  intro pre
  induction pre with
  | nil =>
    intro m post _ hm hne
    cases m with
    | nil => exact absurd rfl hne
    | cons c m' =>
      simp only [List.nil_append]
      rw [List.cons_append] at hm ⊢
      rw [reSub_cons_some repl c (m' ++ post) (c :: m').length (by
        rw [← List.cons_append] at hm
        exact hm) (by simp)]
      rw [← List.cons_append, List.take_left, List.drop_left]
  | cons a pre ih =>
    intro m post h hm hne
    have h0 : matchAt ((a :: pre) ++ m ++ post) = none := by
      have := h 0 (by simp)
      simpa using this
    rw [List.cons_append, List.cons_append] at h0 ⊢
    rw [reSub_cons_none repl a (pre ++ m ++ post) h0]
    rw [ih m post (by
      intro i hi
      have := h (i + 1) (by simp; omega)
      rw [List.cons_append, List.cons_append] at this
      simpa using this) hm hne]
    simp

/-- The `phone_map` build of src/app.py lines 248-253: index every mapping
entry whose fake value has at least 10 digits by its digit string. -/
def build_phone_map (mapping : List (Str × Str)) : List (Str × Str) :=
  mapping.foldl
    (fun pm p =>
      if 10 ≤ (get_digits p.1).length then dictInsert pm (get_digits p.1) p.2 else pm)
    []

/-- Python's substring test `pat in s`. -/
def isSubstr (pat s : Str) : Bool :=
  (List.range (s.length + 1)).any (fun i => pat.isPrefixOf (s.drop i))

/-- `phone_replacer` (src/app.py lines 287-294): return the original number
of the first indexed digit string contained in the match's digit form, else
the match unchanged. -/
def phone_replacer (phoneMap : List (Str × Str)) (found : Str) : Str :=
  match phoneMap.findSome?
      (fun p => if isSubstr p.1 (get_digits found) then some p.2 else none) with
  | some r => r
  | none => found

/-- Layer 2 of restore (src/app.py line 296): re-scan the text with the
phone pattern, repairing via `phone_replacer`. -/
def phoneFix (mapping : List (Str × Str)) (text : Str) : Str :=
  reSub (phone_replacer (build_phone_map mapping)) text

theorem dictInsert_mem_keys (pm : List (Str × Str)) (k v x : Str)
    (h : x ∈ pm.map Prod.fst ∨ x = k) :
    x ∈ (dictInsert pm k v).map Prod.fst := by
  unfold dictInsert
  by_cases hany : pm.any (fun p => p.1 == k) = true
  · rw [if_pos hany]
    have hkeys : (pm.map (fun p => if p.1 = k then (k, v) else p)).map Prod.fst =
        pm.map Prod.fst := by
      rw [List.map_map]
      apply List.map_congr_left
      intro p _
      by_cases hp : p.1 = k
      · simp [hp]
      · simp [hp]
    rw [hkeys]
    rcases h with h | h
    · exact h
    · subst h
      rw [List.any_eq_true] at hany
      obtain ⟨p, hp, hpk⟩ := hany
      exact List.mem_map.mpr ⟨p, hp, by simpa using hpk⟩
  · rw [if_neg hany]
    simp only [List.map_append, List.map_cons, List.map_nil, List.mem_append,
      List.mem_singleton]
    rcases h with h | h
    · exact Or.inl h
    · exact Or.inr h

theorem build_phone_map_go (x : Str) :
    ∀ (mapping pm : List (Str × Str)),
      (x ∈ pm.map Prod.fst ∨
        ∃ p ∈ mapping, 10 ≤ (get_digits p.1).length ∧ get_digits p.1 = x) →
      x ∈ (mapping.foldl
        (fun pm p =>
          if 10 ≤ (get_digits p.1).length then dictInsert pm (get_digits p.1) p.2
          else pm) pm).map Prod.fst := by
  intro mapping
  induction mapping with
  | nil =>
    intro pm h
    rcases h with h | ⟨p, hp, _⟩
    · exact h
    · simp at hp
  | cons q rest ih =>
    intro pm h
    simp only [List.foldl_cons]
    by_cases hq : 10 ≤ (get_digits q.1).length
    · rw [if_pos hq]
      apply ih
      rcases h with h | ⟨p, hp, hplen, hpx⟩
      · exact Or.inl (dictInsert_mem_keys pm _ _ x (Or.inl h))
      · rcases List.mem_cons.mp hp with hp | hp
        · subst hp
          exact Or.inl (dictInsert_mem_keys pm _ _ x (Or.inr hpx.symm))
        · exact Or.inr ⟨p, hp, hplen, hpx⟩
    · rw [if_neg hq]
      apply ih
      rcases h with h | ⟨p, hp, hplen, hpx⟩
      · exact Or.inl h
      · rcases List.mem_cons.mp hp with hp | hp
        · subst hp; exact absurd hplen hq
        · exact Or.inr ⟨p, hp, hplen, hpx⟩

/-- Every fake value with at least 10 digits is indexed in `phone_map` by
its digit string. -/
theorem build_phone_map_indexes (mapping : List (Str × Str)) (f r : Str)
    (hmem : (f, r) ∈ mapping) (hlen : 10 ≤ (get_digits f).length) :
    get_digits f ∈ (build_phone_map mapping).map Prod.fst :=
  build_phone_map_go (get_digits f) mapping []
    (Or.inr ⟨(f, r), hmem, hlen, rfl⟩)

/-- Helper: the code's span layout hypothesis for the app.py merge output
transfers element properties onto the chain. -/
theorem mergeFindings_sorted (fs : List Finding) (h : ∀ f ∈ fs, f.start ≤ f.stop) :
    List.Chain' (fun a b => a.start ≤ b.start) (mergeFindings fs) := by
  obtain ⟨hch, hmem⟩ := mergeFindings_chain fs
  exact chain'_imp_of_mem (P := fun f : Finding => f.start ≤ f.stop) hch
    (fun x hx => h x (hmem x hx)) (by intro a b ha _ hab; omega)

theorem mergeSpansMain_sorted (ss : List PSpan) (h : ∀ s ∈ ss, s.start ≤ s.stop) :
    List.Chain' (fun a b => a.start ≤ b.start) (mergeSpansMain ss) := by
  obtain ⟨hch, hmem⟩ := mergeSpansMain_chain ss
  exact chain'_imp_of_mem (P := fun s : PSpan => s.start ≤ s.stop) hch
    (fun x hx => h x (hmem x hx)) (by intro a b ha _ hab; omega)

/-! ## Claims -/

/-- Claim C1, counterexample.  The round trip is NOT unconditional: if the
generated fake value already occurs in the surrounding text (nothing in the
generator checks the input text, only the call's used-set), exact-substring
restoration also rewrites that pre-existing occurrence.  Here the text
contains the person "Bob Smith" and the span covering "Alice" receives the
fake value "Bob Smith"; restoring the unmodified anonymized text yields
"Alice met Alice", not the original text, even though the span layout is
well formed. -/
theorem C1_counterexample :
    SpansOrdered 0 [⟨14, 19, "Bob Smith".toList⟩] ∧
      restore_logic (anonMap "Bob Smith met Alice".toList [⟨14, 19, "Bob Smith".toList⟩])
        (anonText "Bob Smith met Alice".toList 0 [⟨14, 19, "Bob Smith".toList⟩]) ≠
        "Bob Smith met Alice".toList := by
  constructor
  · decide
  · decide

/-- Claim C1, amended.  For every text and every well-ordered merged span
layout with assigned fake values, restoring the unmodified anonymized text
with the recorded mapping via the exact-substring layer alone
(`restore_logic`) reproduces the original text exactly, PROVIDED the fake
values are fresh: each fake value is nonempty, its first occurrence in the
text being restored at its step is its own replacement site, and it does not
occur in the not-yet-restored suffix (`Fresh`). -/
theorem C1_round_trip_fresh (text : Str) (items : List MItem)
    (hord : SpansOrdered 0 items)
    (hfresh : Fresh [] (triplesOf text 0 items) (text.drop (finalCur 0 items))) :
    restore_logic (anonMap text items) (anonText text 0 items) = text :=
  restore_of_fresh text items hord hfresh

/-- Claim C1, witness: a concrete fresh two-span instance round-trips
exactly ("Jo" and "Ann" are replaced by "Al" and "Eve" and restored). -/
theorem C1_witness :
    restore_logic
      (anonMap "Jo met Ann!".toList [⟨0, 2, "Al".toList⟩, ⟨7, 10, "Eve".toList⟩])
      (anonText "Jo met Ann!".toList 0 [⟨0, 2, "Al".toList⟩, ⟨7, 10, "Eve".toList⟩]) =
      "Jo met Ann!".toList :=
  C1_round_trip_fresh "Jo met Ann!".toList
    [⟨0, 2, "Al".toList⟩, ⟨7, 10, "Eve".toList⟩] (by decide) (by decide)

/-- Claim C2, counterexample.  The merger of src/app.py replaces the last
accepted span when the overlapping candidate has a strictly higher score OR
a strictly greater length — not "strictly higher confidence, or equal
confidence and strictly greater length".  Here the candidate has strictly
LOWER confidence (1/2 against the accepted 1.0) but is longer: the code
replaces, while the claimed rule would discard it.  Moreover the sort has no
longer-span-first tie-break: two candidates with equal starts keep their
original order (shorter first here), not longest first. -/
theorem C2_counterexample :
    (mergeFindings [⟨0, 5, "EMAIL_ADDRESS", 1⟩, ⟨2, 10, "person", mkRat 1 2⟩] =
        [⟨2, 10, "person", mkRat 1 2⟩] ∧
      ¬ ((mkRat 1 2 : ℚ) > 1 ∨
          ((mkRat 1 2 : ℚ) = 1 ∧ (10 : Int) - 2 > (5 : Int) - 0))) ∧
      (sortByStart [⟨0, 3, "SSN", 1⟩, ⟨0, 9, "person", 1⟩] =
          [⟨0, 3, "SSN", 1⟩, ⟨0, 9, "person", 1⟩] ∧
        sortByStart [⟨0, 3, "SSN", 1⟩, ⟨0, 9, "person", 1⟩] ≠
          [⟨0, 9, "person", 1⟩, ⟨0, 3, "SSN", 1⟩]) := by
  refine ⟨⟨?_, ?_⟩, ?_, ?_⟩
  · decide
  · decide
  · decide
  · decide

/-- Claim C2, amended.  Candidates are sorted by start ascending only
(stable: equal starts keep their original order, no longer-first tie-break),
and an overlapping candidate replaces the last accepted span if and only if
it has strictly higher confidence OR strictly greater length (either alone
suffices); otherwise it is discarded. -/
theorem C2_replacement_rule :
    (∀ f1 f2 : Finding, f1.start ≤ f2.start → f2.start < f1.stop →
      mergeFindings [f1, f2] =
        [if f2.score > f1.score ∨
            (f2.stop : Int) - f2.start > (f1.stop : Int) - f1.start
          then f2 else f1]) ∧
      (∀ g1 g2 : Finding, g1.start = g2.start →
        sortByStart [g1, g2] = [g1, g2]) := by
  constructor
  · intro f1 f2 hs hov
    have hsort : sortByStart [f1, f2] = [f1, f2] := by
      unfold sortByStart
      simp only [List.insertionSort, List.orderedInsert]
      rw [if_pos (show startLe f1 f2 from hs)]
    unfold mergeFindings overlapScan
    rw [hsort]
    simp only [List.foldl_cons, List.foldl_nil]
    unfold scanStep
    simp only [List.getLast?_nil, List.getLast?_singleton]
    rw [if_pos hov]
    by_cases hb : f2.score > f1.score ∨
        (f2.stop : Int) - f2.start > (f1.stop : Int) - f1.start
    · rw [if_pos hb, if_pos hb]
      rfl
    · rw [if_neg hb, if_neg hb]
  · intro g1 g2 hg
    unfold sortByStart
    simp only [List.insertionSort, List.orderedInsert]
    rw [if_pos (show startLe g1 g2 from Nat.le_of_eq hg)]

/-- Claim C2, witness: a strictly higher-confidence overlapping candidate
replaces the accepted span. -/
theorem C2_witness :
    mergeFindings [⟨0, 5, "e", mkRat 1 2⟩, ⟨2, 6, "p", 1⟩] = [⟨2, 6, "p", 1⟩] :=
  (C2_replacement_rule.1 ⟨0, 5, "e", mkRat 1 2⟩ ⟨2, 6, "p", 1⟩
    (by decide) (by decide)).trans (by decide)

/-- Helper: the branch behaviour of main.py's `get_session` — 404 on
absence, 401 on owner mismatch, 410 with eviction on expiry (after which any
lookup of the id fails with 404). -/
theorem get_session_cases (store : Store) (sid key : String) (now : Nat) :
    (store sid = none → get_session store sid key now = (store, Except.error 404)) ∧
      (∀ s : SessionRec, store sid = some s → s.apiKey ≠ key →
        get_session store sid key now = (store, Except.error 401)) ∧
      (∀ s : SessionRec, store sid = some s → s.apiKey = key →
        sessionTTL < now - s.created →
        (get_session store sid key now).2 = Except.error 410 ∧
          ∀ (key2 : String) (now2 : Nat),
            get_session (get_session store sid key now).1 sid key2 now2 =
              ((get_session store sid key now).1, Except.error 404)) := by
  refine ⟨?_, ?_, ?_⟩
  · intro h
    unfold get_session
    rw [h]
  · intro s hs hk
    unfold get_session
    rw [hs]
    show (if s.apiKey ≠ key then (store, Except.error 401)
      else if sessionTTL < now - s.created then
        ((fun x => if x = sid then none else store x), Except.error 410)
      else (store, Except.ok s)) = (store, Except.error 401)
    rw [if_pos hk]
  · intro s hs hk hexp
    have hgs : get_session store sid key now =
        ((fun x => if x = sid then none else store x), Except.error 410) := by
      unfold get_session
      rw [hs]
      show (if s.apiKey ≠ key then (store, Except.error 401)
        else if sessionTTL < now - s.created then
          ((fun x => if x = sid then none else store x), Except.error 410)
        else (store, Except.ok s)) =
        ((fun x => if x = sid then none else store x), Except.error 410)
      rw [if_neg (fun hn => hn hk), if_pos hexp]
    refine ⟨by rw [hgs], ?_⟩
    intro key2 now2
    rw [hgs]
    unfold get_session
    simp

/-- Claim C3, counterexample.  The claim covers every restore request, but
app.py's restore endpoint checks the session inline: an owner mismatch is
reported as 404 (not 401), and an arbitrarily old session (created at time
0; the check consults no clock at all) still resolves successfully with the
owner's key — no 410 is ever produced and nothing is evicted. -/
theorem C3_counterexample :
    restoreLookupApp (fun x => if x = "s1" then some ⟨[], 0, "k1"⟩ else none)
        "s1" "kX" = Except.error 404 ∧
      restoreLookupApp (fun x => if x = "s1" then some ⟨[], 0, "k1"⟩ else none)
        "s1" "kX" ≠ Except.error 401 ∧
      restoreLookupApp (fun x => if x = "s1" then some ⟨[], 0, "k1"⟩ else none)
        "s1" "k1" = Except.ok ⟨[], 0, "k1"⟩ := by
  refine ⟨rfl, ?_, rfl⟩
  intro h
  have h2 : (Except.error 404 : Except Nat SessionRec) = Except.error 401 := h
  exact absurd (Except.error.inj h2) (by decide)

/-- Claim C3, amended.  main.py's session lookup (`get_session`, used by its
restore endpoint) fails with 404 when the session id is absent, 401 when the
stored owner key differs from the caller's key, and 410 when the session's
age exceeds the 1 hour TTL — in which case the session is evicted on that
access, so every subsequent lookup of the same id (any key, any time) fails
with 404.  app.py's restore endpoint instead reports both an absent session
and an owner mismatch as 404, and performs no expiration check and no
eviction: a matching-key lookup succeeds regardless of the session's age. -/
theorem C3_lookup_behaviour :
    (∀ (store : Store) (sid key : String) (now : Nat),
      (store sid = none → get_session store sid key now = (store, Except.error 404)) ∧
        (∀ s : SessionRec, store sid = some s → s.apiKey ≠ key →
          get_session store sid key now = (store, Except.error 401)) ∧
        (∀ s : SessionRec, store sid = some s → s.apiKey = key →
          sessionTTL < now - s.created →
          (get_session store sid key now).2 = Except.error 410 ∧
            ∀ (key2 : String) (now2 : Nat),
              get_session (get_session store sid key now).1 sid key2 now2 =
                ((get_session store sid key now).1, Except.error 404))) ∧
      (∀ (store : Store) (sid key : String),
        (store sid = none → restoreLookupApp store sid key = Except.error 404) ∧
          (∀ s : SessionRec, store sid = some s → s.apiKey ≠ key →
            restoreLookupApp store sid key = Except.error 404) ∧
          (∀ s : SessionRec, store sid = some s → s.apiKey = key →
            restoreLookupApp store sid key = Except.ok s)) := by
  constructor
  · exact get_session_cases
  · intro store sid key
    refine ⟨?_, ?_, ?_⟩
    · intro h
      unfold restoreLookupApp
      rw [h]
    · intro s hs hk
      unfold restoreLookupApp
      rw [hs]
      show (if s.apiKey ≠ key then (Except.error 404 : Except Nat SessionRec)
        else Except.ok s) = Except.error 404
      rw [if_pos hk]
    · intro s hs hk
      unfold restoreLookupApp
      rw [hs]
      show (if s.apiKey ≠ key then (Except.error 404 : Except Nat SessionRec)
        else Except.ok s) = Except.ok s
      rw [if_neg (fun hn => hn hk)]

/-- Claim C3, witness: a concrete expired session yields 410 via main.py's
`get_session` and is then unresolvable, while app.py's inline lookup reports
a wrong key as 404. -/
theorem C3_witness :
    (get_session (fun x => if x = "s1" then some ⟨[], 0, "k1"⟩ else none)
        "s1" "k1" 4000).2 = Except.error 410 ∧
      (get_session
          (get_session (fun x => if x = "s1" then some ⟨[], 0, "k1"⟩ else none)
            "s1" "k1" 4000).1 "s1" "k2" 5).2 = Except.error 404 ∧
      restoreLookupApp (fun x => if x = "s2" then some ⟨[], 7, "k1"⟩ else none)
        "s2" "k2" = Except.error 404 := by
  have h := (C3_lookup_behaviour.1
    (fun x => if x = "s1" then some ⟨[], 0, "k1"⟩ else none) "s1" "k1" 4000).2.2
    ⟨[], 0, "k1"⟩ rfl rfl (by decide)
  have h2 := (C3_lookup_behaviour.2
    (fun x => if x = "s2" then some ⟨[], 7, "k1"⟩ else none) "s2" "k2").2.1
    ⟨[], 7, "k1"⟩ rfl (by decide)
  exact ⟨h.1, by rw [h.2 "k2" 5], h2⟩

/-- Claim C4, counterexample.  The claim covers every anonymize call, but in
main.py the analyzer invocation is the sole detection source and its failure
is re-raised as HTTP 500: the request aborts and the failure is surfaced to
the caller, instead of the pipeline continuing with rule-based findings. -/
theorem C4_counterexample :
    analyzeMain (Except.error ()) = Except.error 500 ∧
      analyzeMain (Except.error ()) ≠ Except.ok [] := by
  refine ⟨rfl, ?_⟩
  intro h
  have h2 : (Except.error 500 : Except Nat (List PSpan)) = Except.ok [] := h
  exact Except.noConfusion h2

/-- Claim C4, amended.  In app.py's pipeline a probabilistic entity-model
failure (exception or timeout) is caught: the detector yields exactly the
rule-based findings and the whole pipeline behaves as if only the rule
source had run — `analyze_and_replace` is a total function into plain
values, so no detection failure can abort the request or surface to the
caller there.  In main.py, by contrast, the analyzer is the sole detection
source and its failure is re-raised as HTTP 500, aborting the request. -/
theorem C4_model_failure_behaviour :
    (∀ (text : Str) (ruleFindings : List Finding) (e : Unit)
        (rawFakes sufs : Nat → Str),
      detectFindings ruleFindings (Except.error e) = ruleFindings ∧
        analyze_and_replace text (detectFindings ruleFindings (Except.error e))
            rawFakes sufs =
          analyze_and_replace text ruleFindings rawFakes sufs) ∧
      (∀ e : Unit, analyzeMain (Except.error e) = Except.error 500) ∧
      (∀ results : List PSpan, analyzeMain (Except.ok results) = Except.ok results) := by
  refine ⟨?_, fun _ => rfl, fun _ => rfl⟩
  intro text ruleFindings e rawFakes sufs
  have h : detectFindings ruleFindings (Except.error e) = ruleFindings := by
    unfold detectFindings
    simp
  exact ⟨h, by rw [h]⟩

/-- Claim C5 (confirmed).  Within one anonymize call the final mapping's
keys are pairwise distinct (the mapping is a dict keyed by the fake values),
and a freshly generated fake value that already appears in the call's
used-set is accepted only after a random numeric suffix is appended. -/
theorem C5_mapping_keys_distinct (text : Str) (findings : List Finding)
    (rawFakes sufs : Nat → Str) :
    (((analyze_and_replace text findings rawFakes sufs).2).map Prod.fst).Nodup ∧
      (∀ (ent : Finding) (rest : List Finding) (k : Nat) (used : List Str)
        (mapping : List (Str × Str)) (repls : List Repl),
        lowerStr (sliceStr text ent.start ent.stop) ∉ JSON_KEYS →
        rawFakes k ∈ used →
        genLoop text rawFakes sufs (ent :: rest) k used mapping repls =
          genLoop text rawFakes sufs rest (k + 1)
            ((rawFakes k ++ '_' :: sufs k) :: used)
            (dictInsert mapping (rawFakes k ++ '_' :: sufs k)
              (sliceStr text ent.start ent.stop))
            (repls ++ [⟨ent.start, ent.stop, rawFakes k ++ '_' :: sufs k⟩])) := by
  constructor
  · unfold analyze_and_replace
    exact genLoop_nodup_keys text rawFakes sufs (mergeFindings findings) 0 [] [] []
      List.nodup_nil
  · intro ent rest k used mapping repls hskip hused
    conv_lhs => unfold genLoop
    rw [if_neg hskip]
    simp only [if_pos hused]

/-- Claim C5, witness: a colliding PERSON fake gets suffixed and both
mapping keys stay distinct. -/
theorem C5_witness :
    ((analyze_and_replace "Ann met Ann Lee".toList
        [⟨0, 3, "person", 1⟩, ⟨8, 15, "person", 1⟩]
        (fun _ => "Kim Day".toList) (fun _ => "7".toList)).2.map Prod.fst).Nodup ∧
      genLoop "Ann met Ann Lee".toList (fun _ => "Kim Day".toList)
          (fun _ => "7".toList) [⟨8, 15, "person", 1⟩] 1 ["Kim Day".toList] [] [] =
        genLoop "Ann met Ann Lee".toList (fun _ => "Kim Day".toList)
          (fun _ => "7".toList) [] 2
          (("Kim Day".toList ++ '_' :: "7".toList) :: ["Kim Day".toList])
          (dictInsert [] ("Kim Day".toList ++ '_' :: "7".toList)
            (sliceStr "Ann met Ann Lee".toList 8 15))
          ([] ++ [⟨8, 15, "Kim Day".toList ++ '_' :: "7".toList⟩]) := by
  refine ⟨(C5_mapping_keys_distinct "Ann met Ann Lee".toList
    [⟨0, 3, "person", 1⟩, ⟨8, 15, "person", 1⟩]
    (fun _ => "Kim Day".toList) (fun _ => "7".toList)).1, ?_⟩
  exact (C5_mapping_keys_distinct "Ann met Ann Lee".toList
    [⟨0, 3, "person", 1⟩, ⟨8, 15, "person", 1⟩]
    (fun _ => "Kim Day".toList) (fun _ => "7".toList)).2
    ⟨8, 15, "person", 1⟩ [] 1 ["Kim Day".toList] [] [] (by decide) (by decide)

/-- Claim C9 (confirmed).  With no candidate spans detected, anonymization
returns the text unchanged together with an empty mapping — in the app.py
pipeline (`analyze_and_replace` on an empty findings list) and in the
main.py substitution loop (no merged spans). -/
theorem C9_no_spans_identity (text : Str) (rawFakes sufs : Nat → Str) :
    analyze_and_replace text [] rawFakes sufs = (text, []) ∧
      anonText text 0 [] = text ∧ anonMap text [] = [] :=
  ⟨rfl, rfl, rfl⟩

/-- Claim C6 (confirmed).  (1) Every mapping entry whose fake value has at
least 10 digits is indexed in `phone_map` by its digit string.  (2) If the
digit form of a matched span contains one of the indexed digit strings,
`phone_replacer` returns the original value corresponding to an indexed
digit string contained in it.  (3) The re-scan with the generic phone
pattern replaces each match in its entirety by `phone_replacer`'s output and
continues after it — so a fake phone number reformatted with different
punctuation still restores to the original number (see the witness, where a
dash-formatted fake is recovered from a dot-formatted occurrence). -/
theorem C6_phone_digit_repair :
    (∀ (mapping : List (Str × Str)) (f r : Str), (f, r) ∈ mapping →
        10 ≤ (get_digits f).length →
        get_digits f ∈ (build_phone_map mapping).map Prod.fst) ∧
      (∀ (pm : List (Str × Str)) (found r : Str),
        pm.findSome? (fun p => if isSubstr p.1 (get_digits found) then some p.2
          else none) = some r →
        phone_replacer pm found = r ∧
          ∃ fd, (fd, r) ∈ pm ∧ isSubstr fd (get_digits found) = true) ∧
      (∀ (mapping : List (Str × Str)) (pre m post : Str),
        (∀ i < pre.length, matchAt ((pre ++ m ++ post).drop i) = none) →
        matchAt (m ++ post) = some m.length →
        m ≠ [] →
        phoneFix mapping (pre ++ m ++ post) =
          pre ++ phone_replacer (build_phone_map mapping) m ++ phoneFix mapping post) := by
  refine ⟨build_phone_map_indexes, ?_, ?_⟩
  · intro pm found r h
    constructor
    · unfold phone_replacer
      rw [h]
    · obtain ⟨p, hp, hpe⟩ := List.exists_of_findSome?_eq_some h
      by_cases hsub : isSubstr p.1 (get_digits found) = true
      · rw [if_pos hsub] at hpe
        refine ⟨p.1, ?_, hsub⟩
        have : p.2 = r := by simpa using hpe
        rw [show (p.1, r) = p from by rw [← this]]
        exact hp
      · rw [if_neg hsub] at hpe
        exact absurd hpe (by simp)
  · intro mapping pre m post hpre hm hne
    unfold phoneFix
    exact reSub_scan (phone_replacer (build_phone_map mapping)) pre m post hpre hm hne

/-- Claim C6, witness: the fake phone "+1-555-123-4567" (digits
15551234567), reformatted with dots as "+1.555.123.4567" inside other text,
is replaced in its entirety by the original number "+1-212-555-0198". -/
theorem C6_witness :
    phoneFix [("+1-555-123-4567".toList, "+1-212-555-0198".toList)]
        ("Call ".toList ++ "+1.555.123.4567".toList ++ " now".toList) =
      "Call +1-212-555-0198 now".toList := by
  have h := C6_phone_digit_repair.2.2
    [("+1-555-123-4567".toList, "+1-212-555-0198".toList)]
    "Call ".toList "+1.555.123.4567".toList " now".toList
    (by decide) (by decide) (by decide)
  rw [h]
  decide

theorem anonText_eq_rebuilt (text : Str) :
    ∀ (items : List MItem) (c : Nat),
      anonText text c items =
        rebuilt text c (items.map (fun it => ⟨it.start, it.stop, it.fake⟩)) := by
  intro items
  induction items with
  | nil => intro c; rfl
  | cons it rest ih =>
    intro c
    simp only [anonText, List.map_cons, rebuilt]
    rw [ih it.stop]

/-- Claim C7 (confirmed).  The substitution engine (stable descending sort
by start, then slice-assignments over the mutable character list) produces,
on non-overlapping in-bounds spans, exactly the gap interleaving `rebuilt`:
every character outside the replaced spans appears unchanged and in order
(the untouched slices of the original text), with each span replaced by its
fake value.  The main.py parts/cursor loop (`anonText`) equals the same
interleaving outright. -/
theorem C7_substitution_frame (text : Str) (rs : List Repl) (items : List MItem)
    (hch : List.Chain' (fun a b => a.stop ≤ b.start) rs)
    (hok : ∀ r ∈ rs, r.start < r.stop ∧ r.stop ≤ text.length) :
    applyRepls text rs = rebuilt text 0 rs ∧
      anonText text 0 items =
        rebuilt text 0 (items.map (fun it => ⟨it.start, it.stop, it.fake⟩)) :=
  ⟨applyRepls_eq_rebuilt text rs hch hok, anonText_eq_rebuilt text items 0⟩

/-- Claim C7, witness: a concrete two-replacement instance. -/
theorem C7_witness :
    applyRepls "abcdefgh".toList [⟨1, 3, "XY".toList⟩, ⟨5, 6, "Z".toList⟩] =
      rebuilt "abcdefgh".toList 0 [⟨1, 3, "XY".toList⟩, ⟨5, 6, "Z".toList⟩] :=
  (C7_substitution_frame "abcdefgh".toList
    [⟨1, 3, "XY".toList⟩, ⟨5, 6, "Z".toList⟩] []
    (by simp [List.chain'_cons, List.chain'_singleton]) (by decide)).1

/-- Claim C8 (confirmed).  For every candidate list, both mergers produce a
list ordered by start ascending whose spans are pairwise non-overlapping:
each retained span's start is at least the end of the span retained before
it (the start-ordering needs each candidate to satisfy `start ≤ end`, which
holds for all detector output). -/
theorem C8_merger_invariant (fs : List Finding) (ss : List PSpan)
    (hf : ∀ f ∈ fs, f.start ≤ f.stop) (hsp : ∀ s ∈ ss, s.start ≤ s.stop) :
    (List.Chain' (fun a b => a.stop ≤ b.start) (mergeFindings fs) ∧
        List.Chain' (fun a b => a.start ≤ b.start) (mergeFindings fs)) ∧
      (List.Chain' (fun a b => a.stop ≤ b.start) (mergeSpansMain ss) ∧
        List.Chain' (fun a b => a.start ≤ b.start) (mergeSpansMain ss)) :=
  ⟨⟨(mergeFindings_chain fs).1, mergeFindings_sorted fs hf⟩,
    ⟨(mergeSpansMain_chain ss).1, mergeSpansMain_sorted ss hsp⟩⟩

/-- Claim C8, witness: overlapping candidates from both pipelines. -/
theorem C8_witness :
    (List.Chain' (fun a b => a.stop ≤ b.start)
        (mergeFindings [⟨0, 5, "EMAIL_ADDRESS", 1⟩, ⟨3, 9, "person", mkRat 1 2⟩]) ∧
      List.Chain' (fun a b => a.start ≤ b.start)
        (mergeFindings [⟨0, 5, "EMAIL_ADDRESS", 1⟩, ⟨3, 9, "person", mkRat 1 2⟩])) ∧
      (List.Chain' (fun a b => a.stop ≤ b.start)
          (mergeSpansMain [⟨0, 5, "PERSON"⟩, ⟨3, 9, "LOCATION"⟩, ⟨12, 15, "URL"⟩]) ∧
        List.Chain' (fun a b => a.start ≤ b.start)
          (mergeSpansMain [⟨0, 5, "PERSON"⟩, ⟨3, 9, "LOCATION"⟩, ⟨12, 15, "URL"⟩])) :=
  C8_merger_invariant [⟨0, 5, "EMAIL_ADDRESS", 1⟩, ⟨3, 9, "person", mkRat 1 2⟩]
    [⟨0, 5, "PERSON"⟩, ⟨3, 9, "LOCATION"⟩, ⟨12, 15, "URL"⟩] (by decide) (by decide)

/-- Claim C10 (confirmed).  In session lookup the ownership check precedes
the expiration check, and eviction happens only in the expired branch: a
lookup failing with 404 (absent) or 401 (owner mismatch), or succeeding
within the TTL, returns the store completely unchanged; in particular an
expired session queried with a non-matching key yields 401 and is not
evicted. -/
theorem C10_lookup_frame (store : Store) (sid key : String) (now : Nat) :
    (store sid = none → get_session store sid key now = (store, Except.error 404)) ∧
      (∀ s : SessionRec, store sid = some s → s.apiKey ≠ key →
        get_session store sid key now = (store, Except.error 401)) ∧
      (∀ s : SessionRec, store sid = some s → s.apiKey = key →
        ¬ (sessionTTL < now - s.created) →
        get_session store sid key now = (store, Except.ok s)) ∧
      (∀ s : SessionRec, store sid = some s → s.apiKey ≠ key →
        sessionTTL < now - s.created →
        get_session store sid key now = (store, Except.error 401)) := by
  have hbranch : ∀ s : SessionRec, store sid = some s →
      get_session store sid key now =
        (if s.apiKey ≠ key then (store, Except.error 401)
          else if sessionTTL < now - s.created then
            ((fun x => if x = sid then none else store x), Except.error 410)
          else (store, Except.ok s)) := by
    intro s hs
    unfold get_session
    rw [hs]
  refine ⟨?_, ?_, ?_, ?_⟩
  · intro h
    unfold get_session
    rw [h]
  · intro s hs hk
    rw [hbranch s hs, if_pos hk]
  · intro s hs hk hexp
    rw [hbranch s hs, if_neg (fun hn => hn hk), if_neg hexp]
  · intro s hs hk _
    rw [hbranch s hs, if_pos hk]

/-- Claim C10, witness: an expired session queried with a non-matching key
yields 401 and leaves the store untouched. -/
theorem C10_witness :
    get_session (fun x => if x = "s1" then some ⟨[], 0, "k1"⟩ else none)
        "s1" "kX" 9999 =
      ((fun x => if x = "s1" then some ⟨[], 0, "k1"⟩ else none),
        Except.error 401) :=
  (C10_lookup_frame (fun x => if x = "s1" then some ⟨[], 0, "k1"⟩ else none)
    "s1" "kX" 9999).2.2.2 ⟨[], 0, "k1"⟩ rfl (by decide) (by decide)

end Celarium
